import Mathlib

/-!
Verification of the pyqint integral engine (`src/pyqint/integrals.cpp`).

The development shallowly embeds the C++ code:

* The `size_t` index arithmetic of `Integrator::teindex` and the
  two-electron job construction of `Integrator::evaluate_cgfs` is modelled
  over `Nat`.  All quantities arising for a basis set whose two-electron
  array is actually allocatable stay far below `2^64`, where `size_t`
  arithmetic coincides with `Nat`; the one place where wrap-around
  genuinely occurs (the `sz - 1` computation for an empty basis set) is
  modelled separately with explicit `% 2^64` reductions (`tcompU64`,
  `teindexU64`, `teArraySizeU64`).
* `double` values are modelled by an arbitrary linearly ordered field `F`;
  the transcendental library routines used by the kernels (`std::pow` with
  fractional exponent, `std::exp`, `std::sqrt`, the Boys function
  `Fgamma`) are abstracted as operations of a context structure `Prims F`.
  Everything proved about the kernels holds for every interpretation of
  those operations, and concrete witnesses instantiate `F := ℚ`.
* Angular momenta are `Nat` (they are `unsigned int` in the source); where
  the source shifts them below zero (the `l2 - 2` overlaps inside
  `Integrator::kinetic`, which reach `Integrator::overlap_1D` through its
  `int` parameters), the model passes the corresponding `Int` values.
-/

namespace PyQInt

/-! ## Index arithmetic (`Integrator::teindex` and the job loop) -/

/-- Triangular number `t*(t+1)/2`, the building block of the compound
indices of `Integrator::teindex`. -/
def tri (t : Nat) : Nat := t * (t + 1) / 2

/-- Compound pair index `i*(i+1)/2 + j` as computed in
`Integrator::teindex` and in the job-construction loop of
`Integrator::evaluate_cgfs` (integrals.cpp:82,85). -/
def compound (i j : Nat) : Nat := i * (i + 1) / 2 + j

/-- The `if (a < b) std::swap(a, b)` step of `Integrator::teindex`:
afterwards the larger component comes first. -/
def swapLT (a b : Nat) : Nat × Nat := if a < b then (b, a) else (a, b)

/-- `Integrator::teindex` (integrals.cpp:993-1009): canonicalize `i ≥ j`
and `k ≥ l`, form the compound indices, canonicalize `ij ≥ kl`, return
`ij*(ij+1)/2 + kl`.  Exact `Nat` arithmetic (see the header comment). -/
def teindex (i j k l : Nat) : Nat :=
  let p := swapLT i j
  let q := swapLT k l
  let ij := compound p.1 p.2
  let kl := compound q.1 q.2
  let r := swapLT ij kl
  compound r.1 r.2

/-- `2^64`, the modulus of `size_t` arithmetic on the 64-bit targets the
code is built for. -/
def U64 : Nat := 18446744073709551616

/-- `i*(i+1)/2 + j` computed in `size_t` (each `+` and `*` reduced mod
`2^64`, the `/ 2` exact), for operands already reduced mod `2^64`. -/
def tcompU64 (i j : Nat) : Nat := (i * ((i + 1) % U64) % U64 / 2 + j) % U64

/-- `Integrator::teindex` with genuine `size_t` (mod `2^64`) arithmetic. -/
def teindexU64 (i j k l : Nat) : Nat :=
  let p := swapLT i j
  let q := swapLT k l
  let ij := tcompU64 p.1 p.2
  let kl := tcompU64 q.1 q.2
  let r := swapLT ij kl
  tcompU64 r.1 r.2

/-- The element count requested for the two-electron vector `tedouble` in
`Integrator::evaluate_cgfs` (integrals.cpp:75), in `size_t` arithmetic:
`teindex(sz-1, sz-1, sz-1, sz-1) + 1`, where both `sz - 1` and the final
`+ 1` wrap mod `2^64`. -/
def teArraySizeU64 (sz : Nat) : Nat :=
  let m := (sz + U64 - 1) % U64
  (teindexU64 m m m m + 1) % U64

/-- Largest `t` with `tri t ≤ m`; used to decompose a canonical key back
into a pair of indices (for the surjectivity of `teindex`). -/
def invTri (m : Nat) : Nat := Nat.findGreatest (fun t => tri t ≤ m) m

/-! ## Two-electron job construction (`Integrator::evaluate_cgfs`) -/

/-- The job-construction state of `Integrator::evaluate_cgfs`
(integrals.cpp:75-101): `seen` holds the canonical keys whose `tedouble`
slot has been overwritten with the `1.0` marker (i.e. is no longer
`< 0.0`), `jobs` the enqueued work items `(idx, i, j, k, l)`. -/
structure JobState where
  seen : List Nat
  jobs : List (Nat × Nat × Nat × Nat × Nat)

/-- One iteration of the innermost job-construction loop body
(integrals.cpp:86-97) on the quadruple `q = (i, j, k, l)`: skip unless
`ij ≤ kl`; throw if the canonical key reaches the array size; enqueue the
job the first time the key is seen. -/
def jobStep (size : Nat) (acc : Except String JobState)
    (q : Nat × Nat × Nat × Nat) : Except String JobState :=
  match acc with
  | .error e => .error e
  | .ok st =>
    if compound q.1 q.2.1 ≤ compound q.2.2.1 q.2.2.2 then
      let idx := teindex q.1 q.2.1 q.2.2.1 q.2.2.2
      if size ≤ idx then
        .error "Process tried to access illegal array position"
      else if idx ∈ st.seen then
        .ok st
      else
        .ok ⟨idx :: st.seen, st.jobs ++ [(idx, q.1, q.2.1, q.2.2.1, q.2.2.2)]⟩
    else
      .ok st

/-- All `sz^4` index quadruples in the iteration order of the fourfold
nested loop of integrals.cpp:80-101. -/
def quadList (sz : Nat) : List (Nat × Nat × Nat × Nat) :=
  (List.range sz).flatMap fun i => (List.range sz).flatMap fun j =>
    (List.range sz).flatMap fun k => (List.range sz).map fun l => (i, j, k, l)

/-- The complete job construction of `Integrator::evaluate_cgfs` for a
basis set of size `sz`: fold the loop body over all quadruples, with the
two-electron array allocated with `teindex(sz-1,...)+1` slots. -/
def buildJobs (sz : Nat) : Except String JobState :=
  (quadList sz).foldl
    (jobStep (teindex (sz - 1) (sz - 1) (sz - 1) (sz - 1) + 1)) (.ok ⟨[], []⟩)

/-- The set of canonical keys produced by `teindex` over all `N^4`
quadruples of indices below `N`. -/
def allKeys (N : Nat) : Finset Nat :=
  ((Finset.range N) ×ˢ (Finset.range N) ×ˢ (Finset.range N) ×ˢ (Finset.range N)).image
    fun q => teindex q.1 q.2.1 q.2.2.1 q.2.2.2

/-- The two invariants of the job-construction loop: enqueued keys are
pairwise distinct, and they are exactly the keys marked in the sentinel
array. -/
def JInv (st : JobState) : Prop :=
  (st.jobs.map (fun x => x.1)).Nodup ∧
  ∀ x, x ∈ st.jobs.map (fun x => x.1) ↔ x ∈ st.seen

/-! ## The numeric kernels

`double` is modelled by a linearly ordered field `F`; the transcendental
library functions are collected in a context structure `Prims F`. -/

/-- 3-vector over the scalar type, standing for `Eigen::Vector3d`. -/
abbrev V3 (F : Type) := F × F × F

/-- The transcendental operations consumed by the kernels.  `pi` is the
long literal shared by `Integrator::overlap` and `Integrator::nuclear`;
`pi2` the shorter `3.14159265359` literal local to
`Integrator::repulsion`; `rpow` stands for `std::pow` with a fractional
exponent; `Fgamma` is the Boys function of the external `gamma_inc`
collaborator. -/
structure Prims (F : Type) where
  pi : F
  pi2 : F
  exp : F → F
  rpow : F → F → F
  sqrt : F → F
  Fgamma : Nat → F → F

variable {F : Type} [LinearOrderedField F]

/-- Componentwise difference of two 3-vectors. -/
def vsub (a b : V3 F) : V3 F := (a.1 - b.1, a.2.1 - b.2.1, a.2.2 - b.2.2)

/-- `Eigen`'s `squaredNorm` of a 3-vector. -/
def sqNorm (a : V3 F) : F := a.1 * a.1 + a.2.1 * a.2.1 + a.2.2 * a.2.2

/-- `Integrator::gaussian_product_center` (integrals.cpp:752-755). -/
def gaussian_product_center (alpha1 : F) (a : V3 F) (alpha2 : F) (b : V3 F) : V3 F :=
  ((alpha1 * a.1 + alpha2 * b.1) / (alpha1 + alpha2),
   (alpha1 * a.2.1 + alpha2 * b.2.1) / (alpha1 + alpha2),
   (alpha1 * a.2.2 + alpha2 * b.2.2) / (alpha1 + alpha2))

/-- Primitive Gaussian-type orbital.  Modelled from the spec: `cgf.h` is
not part of the sources; §3 of the spec lists exponent `alpha`, the
angular-momentum triple `(l, m, n)` of non-negative integers, a 3-D
center and a contraction coefficient.  Field order follows the
`GTO(coefficient, x, y, z, alpha, l, m, n)` constructor visible at the
call sites in integrals.cpp. -/
structure GTO (F : Type) where
  coefficient : F
  x : F
  y : F
  z : F
  alpha : F
  l : Nat
  m : Nat
  n : Nat

/-- `GTO::get_position`. -/
def GTO.position (g : GTO F) : V3 F := (g.x, g.y, g.z)

/-- Default primitive used for out-of-range list accesses (never hit by
the verified statements). -/
def gtoDefault : GTO F := ⟨0, 0, 0, 0, 0, 0, 0, 0⟩

/-- Contracted Gaussian function.  Modelled from the spec: `cgf.h` is not
part of the sources; §3 of the spec describes an ordered sequence of
primitives, each with its own contraction coefficient and normalization
constant, sharing a nominal center `r` ("the nucleus it is attached
to").  Each list entry is `(coefficient, norm, primitive)`. -/
structure CGF (F : Type) where
  r : V3 F
  gtos : List (F × F × GTO F)

/-- `CGF::get_coefficient_gto(k)`. -/
def CGF.coefficient_gto (c : CGF F) (k : Nat) : F :=
  (c.gtos.getD k (0, 0, gtoDefault)).1

/-- `CGF::get_norm_gto(k)`. -/
def CGF.norm_gto (c : CGF F) (k : Nat) : F :=
  (c.gtos.getD k (0, 0, gtoDefault)).2.1

/-- `CGF::get_gto(k)`. -/
def CGF.gto (c : CGF F) (k : Nat) : GTO F :=
  (c.gtos.getD k (0, 0, gtoDefault)).2.2

/-- Default contracted function for out-of-range accesses. -/
def cgfDefault : CGF F := ⟨(0, 0, 0), []⟩

/-- `Integrator::binomial` (integrals.cpp:773-778): `1.0` on every
out-of-domain input, `a!/(b!(a-b)!)` otherwise. -/
def binomial (a b : Int) : F :=
  if a < 0 ∨ b < 0 ∨ a - b < 0 then 1
  else (a.toNat.factorial : F) / ((b.toNat.factorial : F) * ((a - b).toNat.factorial : F))

/-- `Integrator::binomial_prefactor` (integrals.cpp:757-771). -/
def binomial_prefactor (s ia ib : Int) (xpa xpb : F) : F :=
  (List.range (s + 1).toNat).foldl (fun sum t =>
    if s - ia ≤ (t : Int) ∧ (t : Int) ≤ ib then
      sum + binomial ia (s - t) * binomial ib t *
        xpa ^ (ia - s + t).toNat * xpb ^ (ib - (t : Int)).toNat
    else sum) 0

/-- Double factorial, as consumed by `Integrator::overlap_1D` through
`boost::math::double_factorial` at odd arguments. -/
def doubleFactorial : Nat → Nat
  | 0 => 1
  | 1 => 1
  | n + 2 => (n + 2) * doubleFactorial n

/-- `Integrator::overlap_1D` (integrals.cpp:729-739).  The `int`
parameters matter: the kinetic kernel reaches this function with negative
`l2`, making the loop empty when `l1 + l2 < 0`. -/
def overlap_1D (l1 l2 : Int) (x1 x2 gamma : F) : F :=
  (List.range (1 + (l1 + l2).fdiv 2).toNat).foldl (fun sum (i : Nat) =>
    sum + binomial_prefactor (2 * (i : Int)) l1 l2 x1 x2 *
      (if i = 0 then (1 : F) else ((doubleFactorial (2 * i - 1 : Nat) : Nat) : F)) /
      (2 * gamma) ^ i) 0

/-- `Integrator::overlap(alpha1, l1, m1, n1, a, alpha2, l2, m2, n2, b)`
(integrals.cpp:698-713).  The angular parameters are `Int` because the
kinetic kernel calls it with down-shifted (possibly negative, after the
`unsigned` wrap is reinterpreted by `overlap_1D`'s `int` parameters)
angular momenta. -/
def overlap_params (P : Prims F) (alpha1 : F) (l1 m1 n1 : Int) (a : V3 F)
    (alpha2 : F) (l2 m2 n2 : Int) (b : V3 F) : F :=
  let rab2 := sqNorm (vsub a b)
  let gamma := alpha1 + alpha2
  let p := gaussian_product_center alpha1 a alpha2 b
  let pre := P.rpow (P.pi / gamma) (3 / 2) * P.exp (-alpha1 * alpha2 * rab2 / gamma)
  let wx := overlap_1D l1 l2 (p.1 - a.1) (p.1 - b.1) gamma
  let wy := overlap_1D m1 m2 (p.2.1 - a.2.1) (p.2.1 - b.2.1) gamma
  let wz := overlap_1D n1 n2 (p.2.2 - a.2.2) (p.2.2 - b.2.2) gamma
  pre * wx * wy * wz

/-- `Integrator::overlap(GTO, GTO)` (integrals.cpp:208-211). -/
def overlap_gto (P : Prims F) (g1 g2 : GTO F) : F :=
  overlap_params P g1.alpha g1.l g1.m g1.n g1.position
    g2.alpha g2.l g2.m g2.n g2.position

/-- `Integrator::overlap(CGF, CGF)` (integrals.cpp:140-156): double
contraction sum weighted by norms and coefficients. -/
def overlap_cgf (P : Prims F) (c1 c2 : CGF F) : F :=
  (List.range c1.gtos.length).foldl (fun sum k =>
    (List.range c2.gtos.length).foldl (fun sum l =>
      sum + c1.norm_gto k * c2.norm_gto l *
        c1.coefficient_gto k * c2.coefficient_gto l *
        overlap_gto P (c1.gto k) (c2.gto l)) sum) 0

/-- `Integrator::kinetic(GTO, GTO)` (integrals.cpp:374-392).  The `l2-2`
down-shifts are passed as `Int` (see `overlap_params`); the coefficients
`l2*(l2-1)` are the `unsigned` products of the source, which coincide
with truncated `Nat` subtraction. -/
def kinetic_gto (P : Prims F) (g1 g2 : GTO F) : F :=
  let term0 := g2.alpha * (2 * ((g2.l + g2.m + g2.n : Nat) : F) + 3) * overlap_gto P g1 g2
  let term1 := -2 * g2.alpha ^ 2 *
    (overlap_params P g1.alpha g1.l g1.m g1.n g1.position
        g2.alpha ((g2.l : Int) + 2) g2.m g2.n g2.position +
     overlap_params P g1.alpha g1.l g1.m g1.n g1.position
        g2.alpha g2.l ((g2.m : Int) + 2) g2.n g2.position +
     overlap_params P g1.alpha g1.l g1.m g1.n g1.position
        g2.alpha g2.l g2.m ((g2.n : Int) + 2) g2.position)
  let term2 := -(1 / 2 : F) *
    (((g2.l * (g2.l - 1) : Nat) : F) *
       overlap_params P g1.alpha g1.l g1.m g1.n g1.position
         g2.alpha ((g2.l : Int) - 2) g2.m g2.n g2.position +
     ((g2.m * (g2.m - 1) : Nat) : F) *
       overlap_params P g1.alpha g1.l g1.m g1.n g1.position
         g2.alpha g2.l ((g2.m : Int) - 2) g2.n g2.position +
     ((g2.n * (g2.n - 1) : Nat) : F) *
       overlap_params P g1.alpha g1.l g1.m g1.n g1.position
         g2.alpha g2.l g2.m ((g2.n : Int) - 2) g2.position)
  term0 + term1 + term2

/-- `Integrator::kinetic(CGF, CGF)` (integrals.cpp:253-269). -/
def kinetic_cgf (P : Prims F) (c1 c2 : CGF F) : F :=
  (List.range c1.gtos.length).foldl (fun sum k =>
    (List.range c2.gtos.length).foldl (fun sum l =>
      sum + c1.norm_gto k * c2.norm_gto l *
        c1.coefficient_gto k * c2.coefficient_gto l *
        kinetic_gto P (c1.gto k) (c2.gto l)) sum) 0

/-- Component `coord` of the `gto_ang = {l, m, n}` array used by the
derivative kernels. -/
def angOf (g : GTO F) (coord : Fin 3) : Nat :=
  if coord.val = 0 then g.l else if coord.val = 1 then g.m else g.n

/-- The `gto_ang` array with component `coord` replaced by `v`. -/
def setAng (l m n : Nat) (coord : Fin 3) (v : Nat) : Nat × Nat × Nat :=
  if coord.val = 0 then (v, m, n) else if coord.val = 1 then (l, v, n) else (l, m, v)

/-- Whether a contracted function "originates from" the nucleus: the
squared distance of its center to the nucleus is below `0.0001`
(integrals.cpp:174-175 and the analogous checks of the other derivative
kernels). -/
def nucAttached (r nuc : V3 F) : Bool := decide (sqNorm (vsub r nuc) < 1 / 10000)

/-- `Integrator::overlap_deriv(GTO, GTO, coord)` (integrals.cpp:223-241):
the raising/lowering rule `2α·S(l+1) − l·S(l−1)`, with the lowered term
dropped for an s-type component. -/
def overlap_deriv_gto (P : Prims F) (g1 g2 : GTO F) (coord : Fin 3) : F :=
  let a0 := angOf g1 coord
  if a0 ≠ 0 then
    let up := setAng g1.l g1.m g1.n coord (a0 + 1)
    let dn := setAng g1.l g1.m g1.n coord (a0 - 1)
    let term_plus := overlap_params P g1.alpha up.1 up.2.1 up.2.2 g1.position
      g2.alpha g2.l g2.m g2.n g2.position
    let term_min := overlap_params P g1.alpha dn.1 dn.2.1 dn.2.2 g1.position
      g2.alpha g2.l g2.m g2.n g2.position
    2 * g1.alpha * term_plus - (a0 : F) * term_min
  else
    let up := setAng g1.l g1.m g1.n coord (a0 + 1)
    2 * g1.alpha * overlap_params P g1.alpha up.1 up.2.1 up.2.2 g1.position
      g2.alpha g2.l g2.m g2.n g2.position

/-- `Integrator::overlap_deriv(CGF, CGF, nucleus, coord)`
(integrals.cpp:170-196), including the both-or-neither early exit. -/
def overlap_deriv_cgf (P : Prims F) (c1 c2 : CGF F) (nucleus : V3 F) (coord : Fin 3) : F :=
  let c1_nuc := nucAttached c1.r nucleus
  let c2_nuc := nucAttached c2.r nucleus
  if c1_nuc = c2_nuc then 0
  else
    (List.range c1.gtos.length).foldl (fun sum k =>
      (List.range c2.gtos.length).foldl (fun sum l =>
        let t1 := if c1_nuc then overlap_deriv_gto P (c1.gto k) (c2.gto l) coord else 0
        let t2 := if c2_nuc then overlap_deriv_gto P (c2.gto l) (c1.gto k) coord else 0
        sum + c1.norm_gto k * c2.norm_gto l *
          c1.coefficient_gto k * c2.coefficient_gto l * (t1 + t2)) sum) 0

/-- `Integrator::kinetic_deriv(GTO, GTO, coord)` (integrals.cpp:322-362):
same raising/lowering rule, applied by rebuilding the first primitive with
shifted angular momentum. -/
def kinetic_deriv_gto (P : Prims F) (g1 g2 : GTO F) (coord : Fin 3) : F :=
  let a0 := angOf g1 coord
  if a0 ≠ 0 then
    let up := setAng g1.l g1.m g1.n coord (a0 + 1)
    let dn := setAng g1.l g1.m g1.n coord (a0 - 1)
    let term_plus := kinetic_gto P
      ⟨g1.coefficient, g1.x, g1.y, g1.z, g1.alpha, up.1, up.2.1, up.2.2⟩ g2
    let term_min := kinetic_gto P
      ⟨g1.coefficient, g1.x, g1.y, g1.z, g1.alpha, dn.1, dn.2.1, dn.2.2⟩ g2
    2 * g1.alpha * term_plus - (a0 : F) * term_min
  else
    let up := setAng g1.l g1.m g1.n coord (a0 + 1)
    2 * g1.alpha * kinetic_gto P
      ⟨g1.coefficient, g1.x, g1.y, g1.z, g1.alpha, up.1, up.2.1, up.2.2⟩ g2

/-- `Integrator::kinetic_deriv(CGF, CGF, nucleus, coord)`
(integrals.cpp:283-309). -/
def kinetic_deriv_cgf (P : Prims F) (c1 c2 : CGF F) (nucleus : V3 F) (coord : Fin 3) : F :=
  let c1_nuc := nucAttached c1.r nucleus
  let c2_nuc := nucAttached c2.r nucleus
  if c1_nuc = c2_nuc then 0
  else
    (List.range c1.gtos.length).foldl (fun sum k =>
      (List.range c2.gtos.length).foldl (fun sum l =>
        let t1 := if c1_nuc then kinetic_deriv_gto P (c1.gto k) (c2.gto l) coord else 0
        let t2 := if c2_nuc then kinetic_deriv_gto P (c2.gto l) (c1.gto k) coord else 0
        sum + c1.norm_gto k * c2.norm_gto l *
          c1.coefficient_gto k * c2.coefficient_gto l * (t1 + t2)) sum) 0

/-- `Integrator::A_term` (integrals.cpp:906-910). -/
def A_term (i r u : Nat) (l1 l2 : Int) (pax pbx cpx : F) (gamma : F) : F :=
  (-1 : F) ^ i * binomial_prefactor i l1 l2 pax pbx *
    (-1 : F) ^ u * (i.factorial : F) * cpx ^ (i - 2 * r - 2 * u) *
    ((1 / 4 : F) / gamma) ^ (r + u) / (r.factorial : F) / (u.factorial : F) /
    ((i - 2 * r - 2 * u).factorial : F)

/-- `Integrator::A_array` (integrals.cpp:867-881): accumulate the Hermite
coefficients `A[i - 2r - u]` over the triple `i, r, u` loop. -/
def A_array (l1 l2 : Int) (pa pb cp g : F) : List F :=
  let imax := (l1 + l2 + 1).toNat
  (List.range imax).foldl (fun arr i =>
    (List.range (i / 2 + 1)).foldl (fun arr r =>
      (List.range ((i - 2 * r) / 2 + 1)).foldl (fun arr u =>
        let iI := i - 2 * r - u
        arr.set iI (arr.getD iI 0 + A_term i r u l1 l2 pa pb cp g)) arr) arr)
    (List.replicate imax 0)

/-- `Integrator::nuclear(a, l1, m1, n1, alpha1, b, l2, m2, n2, alpha2, c)`
(integrals.cpp:780-807). -/
def nuclear_params (P : Prims F) (a : V3 F) (l1 m1 n1 : Int) (alpha1 : F)
    (b : V3 F) (l2 m2 n2 : Int) (alpha2 : F) (c : V3 F) : F :=
  let gamma := alpha1 + alpha2
  let p := gaussian_product_center alpha1 a alpha2 b
  let rab2 := sqNorm (vsub a b)
  let rcp2 := sqNorm (vsub c p)
  let ax := A_array l1 l2 (p.1 - a.1) (p.1 - b.1) (p.1 - c.1) gamma
  let ay := A_array m1 m2 (p.2.1 - a.2.1) (p.2.1 - b.2.1) (p.2.1 - c.2.1) gamma
  let az := A_array n1 n2 (p.2.2 - a.2.2) (p.2.2 - b.2.2) (p.2.2 - c.2.2) gamma
  let pre : F := -2 * P.pi / gamma * P.exp (-alpha1 * alpha2 * rab2 / gamma)
  let sum := (List.range (l1 + l2 + 1).toNat).foldl (fun s i =>
    (List.range (m1 + m2 + 1).toNat).foldl (fun s j =>
      (List.range (n1 + n2 + 1).toNat).foldl (fun s k =>
        s + ax.getD i 0 * ay.getD j 0 * az.getD k 0 *
          P.Fgamma (i + j + k) (rcp2 * gamma)) s) s) 0
  pre * sum

/-- `Integrator::nuclear(GTO, GTO, nucleus)` (integrals.cpp:473-476). -/
def nuclear_gto (P : Prims F) (g1 g2 : GTO F) (nucleus : V3 F) : F :=
  nuclear_params P g1.position g1.l g1.m g1.n g1.alpha
    g2.position g2.l g2.m g2.n g2.alpha nucleus

/-- `Integrator::nuclear(CGF, CGF, nucleus, charge)`
(integrals.cpp:405-419); the charge multiplies the contracted sum. -/
def nuclear_cgf (P : Prims F) (c1 c2 : CGF F) (nucleus : V3 F) (charge : Nat) : F :=
  ((List.range c1.gtos.length).foldl (fun sum k =>
    (List.range c2.gtos.length).foldl (fun sum l =>
      sum + c1.norm_gto k * c2.norm_gto l *
        c1.coefficient_gto k * c2.coefficient_gto l *
        nuclear_gto P (c1.gto k) (c2.gto l) nucleus) sum) 0) * (charge : F)

/-- `Integrator::fact_ratio2` (integrals.cpp:989-991). -/
def fact_ratio2 (a b : Nat) : F :=
  (a.factorial : F) / (b.factorial : F) / ((a - 2 * b).factorial : F)

/-- `Integrator::B0` (integrals.cpp:985-987); `std::pow(4g, r-i)` has a
non-positive exponent and is modelled with `zpow`. -/
def B0 (i r : Nat) (g : F) : F := fact_ratio2 i r * (4 * g) ^ ((r : Int) - (i : Int))

/-- `Integrator::fB` (integrals.cpp:981-983). -/
def fB (i : Nat) (l1 l2 : Int) (p a b : F) (r : Nat) (g : F) : F :=
  binomial_prefactor i l1 l2 (p - a) (p - b) * B0 i r g

/-- `Integrator::B_term` (integrals.cpp:971-979). -/
def B_term (i1 i2 r1 r2 u : Nat) (l1 l2 l3 l4 : Int)
    (px ax bx qx cx dx gamma1 gamma2 delta : F) : F :=
  fB i1 l1 l2 px ax bx r1 gamma1 *
    (-1 : F) ^ i2 * fB i2 l3 l4 qx cx dx r2 gamma2 *
    (-1 : F) ^ u * fact_ratio2 (i1 + i2 - 2 * (r1 + r2)) u *
    (qx - px) ^ (i1 + i2 - 2 * (r1 + r2) - 2 * u) /
    delta ^ (i1 + i2 - 2 * (r1 + r2) - u)

/-- `Integrator::B_array` (integrals.cpp:948-969). -/
def B_array (l1 l2 l3 l4 : Int) (p a b q c d g1 g2 delta : F) : List F :=
  let imax := (l1 + l2 + l3 + l4 + 1).toNat
  (List.range (l1 + l2 + 1).toNat).foldl (fun arr i1 =>
    (List.range (l3 + l4 + 1).toNat).foldl (fun arr i2 =>
      (List.range (i1 / 2 + 1)).foldl (fun arr r1 =>
        (List.range (i2 / 2 + 1)).foldl (fun arr r2 =>
          (List.range ((i1 + i2) / 2 - r1 - r2 + 1)).foldl (fun arr u =>
            let i := i1 + i2 - 2 * (r1 + r2) - u
            arr.set i (arr.getD i 0 +
              B_term i1 i2 r1 r2 u l1 l2 l3 l4 p a b q c d g1 g2 delta)) arr) arr) arr) arr)
    (List.replicate imax 0)

/-- `Integrator::repulsion(a, la, ..., d, ld, md, nd, alphad)`
(integrals.cpp:912-946). -/
def repulsion_params (P : Prims F)
    (a : V3 F) (la ma na : Int) (alphaa : F)
    (b : V3 F) (lb mb nb : Int) (alphab : F)
    (c : V3 F) (lc mc nc : Int) (alphac : F)
    (d : V3 F) (ld md nd : Int) (alphad : F) : F :=
  let rab2 := sqNorm (vsub a b)
  let rcd2 := sqNorm (vsub c d)
  let p := gaussian_product_center alphaa a alphab b
  let q := gaussian_product_center alphac c alphad d
  let rpq2 := sqNorm (vsub p q)
  let gamma1 := alphaa + alphab
  let gamma2 := alphac + alphad
  let delta := (1 / 4 : F) * (1 / gamma1 + 1 / gamma2)
  let bx := B_array la lb lc ld p.1 a.1 b.1 q.1 c.1 d.1 gamma1 gamma2 delta
  let byv := B_array ma mb mc md p.2.1 a.2.1 b.2.1 q.2.1 c.2.1 d.2.1 gamma1 gamma2 delta
  let bz := B_array na nb nc nd p.2.2 a.2.2 b.2.2 q.2.2 c.2.2 d.2.2 gamma1 gamma2 delta
  let pre : F := 2 * P.rpow P.pi2 (5 / 2) / (gamma1 * gamma2 * P.sqrt (gamma1 + gamma2)) *
    P.exp (-alphaa * alphab * rab2 / gamma1) *
    P.exp (-alphac * alphad * rcd2 / gamma2)
  let sum := (List.range (la + lb + lc + ld + 1).toNat).foldl (fun s i =>
    (List.range (ma + mb + mc + md + 1).toNat).foldl (fun s j =>
      (List.range (na + nb + nc + nd + 1).toNat).foldl (fun s k =>
        s + bx.getD i 0 * byv.getD j 0 * bz.getD k 0 *
          P.Fgamma (i + j + k) ((1 / 4 : F) * rpq2 / delta)) s) s) 0
  pre * sum

/-- `Integrator::repulsion(GTO, GTO, GTO, GTO)` (integrals.cpp:630-638). -/
def repulsion_gto (P : Prims F) (g1 g2 g3 g4 : GTO F) : F :=
  repulsion_params P g1.position g1.l g1.m g1.n g1.alpha
    g2.position g2.l g2.m g2.n g2.alpha
    g3.position g3.l g3.m g3.n g3.alpha
    g4.position g4.l g4.m g4.n g4.alpha

/-- `Integrator::repulsion(CGF, CGF, CGF, CGF)` (integrals.cpp:538-558). -/
def repulsion_cgf (P : Prims F) (c1 c2 c3 c4 : CGF F) : F :=
  (List.range c1.gtos.length).foldl (fun sum i =>
    (List.range c2.gtos.length).foldl (fun sum j =>
      (List.range c3.gtos.length).foldl (fun sum k =>
        (List.range c4.gtos.length).foldl (fun sum l =>
          sum + c1.norm_gto i * c2.norm_gto j * c3.norm_gto k * c4.norm_gto l *
            (c1.coefficient_gto i * c2.coefficient_gto j *
             c3.coefficient_gto k * c4.coefficient_gto l) *
            repulsion_gto P (c1.gto i) (c2.gto j) (c3.gto k) (c4.gto l)) sum) sum) sum) 0

/-- `Integrator::repulsion_deriv(GTO, GTO, GTO, GTO, coord)`
(integrals.cpp:653-678). -/
def repulsion_deriv_gto (P : Prims F) (g1 g2 g3 g4 : GTO F) (coord : Fin 3) : F :=
  let a0 := angOf g1 coord
  if a0 ≠ 0 then
    let up := setAng g1.l g1.m g1.n coord (a0 + 1)
    let dn := setAng g1.l g1.m g1.n coord (a0 - 1)
    let term_plus := repulsion_gto P
      ⟨g1.coefficient, g1.x, g1.y, g1.z, g1.alpha, up.1, up.2.1, up.2.2⟩ g2 g3 g4
    let term_min := repulsion_gto P
      ⟨g1.coefficient, g1.x, g1.y, g1.z, g1.alpha, dn.1, dn.2.1, dn.2.2⟩ g2 g3 g4
    2 * g1.alpha * term_plus - (a0 : F) * term_min
  else
    let up := setAng g1.l g1.m g1.n coord (a0 + 1)
    2 * g1.alpha * repulsion_gto P
      ⟨g1.coefficient, g1.x, g1.y, g1.z, g1.alpha, up.1, up.2.1, up.2.2⟩ g2 g3 g4

/-- `Integrator::repulsion_deriv(CGF, CGF, CGF, CGF, nucleus, coord)`
(integrals.cpp:574-616), including the all-flags-equal early exit. -/
def repulsion_deriv_cgf (P : Prims F) (c1 c2 c3 c4 : CGF F)
    (nucleus : V3 F) (coord : Fin 3) : F :=
  let n1 := nucAttached c1.r nucleus
  let n2 := nucAttached c2.r nucleus
  let n3 := nucAttached c3.r nucleus
  let n4 := nucAttached c4.r nucleus
  if n1 = n2 ∧ n2 = n3 ∧ n3 = n4 then 0
  else
    (List.range c1.gtos.length).foldl (fun sum i =>
      (List.range c2.gtos.length).foldl (fun sum j =>
        (List.range c3.gtos.length).foldl (fun sum k =>
          (List.range c4.gtos.length).foldl (fun sum l =>
            let t1 := if n1 then
              repulsion_deriv_gto P (c1.gto i) (c2.gto j) (c3.gto k) (c4.gto l) coord else 0
            let t2 := if n2 then
              repulsion_deriv_gto P (c2.gto j) (c1.gto i) (c3.gto k) (c4.gto l) coord else 0
            let t3 := if n3 then
              repulsion_deriv_gto P (c3.gto k) (c4.gto l) (c1.gto i) (c2.gto j) coord else 0
            let t4 := if n4 then
              repulsion_deriv_gto P (c4.gto l) (c3.gto k) (c1.gto i) (c2.gto j) coord else 0
            sum + (c1.coefficient_gto i * c2.coefficient_gto j *
                   c3.coefficient_gto k * c4.coefficient_gto l) *
              (c1.norm_gto i * c2.norm_gto j * c3.norm_gto k * c4.norm_gto l) *
              (t1 + t2 + t3 + t4)) sum) sum) sum) 0

/-! ## Matrix assembly (`Integrator::evaluate_cgfs`) -/

/-- Column-major flattening of an `sz × sz` matrix, as produced by
`Eigen::MatrixXd::data()` (Eigen's default storage order): position
`col*sz + row` holds entry `(row, col)`. -/
def packMat (sz : Nat) (M : Nat → Nat → F) : List F :=
  (List.range (sz * sz)).map fun t => M (t % sz) (t / sz)

/-- The parallel evaluation loop of integrals.cpp:104-112: each job
overwrites its unique slot of the two-electron array with the value `v`
of its quadruple. -/
def teWrite (v : Nat × Nat × Nat × Nat × Nat → F) (arr : List F)
    (jobs : List (Nat × Nat × Nat × Nat × Nat)) : List F :=
  jobs.foldl (fun a jb => a.set jb.1 (v jb)) arr

/-- `Integrator::evaluate_cgfs` (integrals.cpp:36-128).  The `(i, j)`
pair loop computes each of `S`, `T`, `Vn[k]` once for `i ≤ j` and mirrors
it, so entry `(a, b)` holds the kernel value at `(min a b, max a b)`; the
per-charge matrices `Vn[k]` are then summed into `V`.  The result is the
flat concatenation of column-major `S`, `T`, `V` and the two-electron
array filled from the deduplicated job list. -/
def evaluateCgfs (P : Prims F) (cgfs : List (CGF F)) (charges : List Nat)
    (px py pz : List F) : Except String (List F) :=
  let sz := cgfs.length
  let Smat : Nat → Nat → F := fun a b =>
    overlap_cgf P (cgfs.getD (min a b) cgfDefault) (cgfs.getD (max a b) cgfDefault)
  let Tmat : Nat → Nat → F := fun a b =>
    kinetic_cgf P (cgfs.getD (min a b) cgfDefault) (cgfs.getD (max a b) cgfDefault)
  let Vmat : Nat → Nat → F := fun a b =>
    ∑ kk ∈ Finset.range charges.length,
      nuclear_cgf P (cgfs.getD (min a b) cgfDefault) (cgfs.getD (max a b) cgfDefault)
        (px.getD kk 0, py.getD kk 0, pz.getD kk 0) (charges.getD kk 0)
  match buildJobs sz with
  | .error e => .error e
  | .ok st =>
    let te0 : List F := List.replicate (teindex (sz - 1) (sz - 1) (sz - 1) (sz - 1) + 1) (-1)
    let te := teWrite (fun jb =>
      repulsion_cgf P (cgfs.getD jb.2.1 cgfDefault) (cgfs.getD jb.2.2.1 cgfDefault)
        (cgfs.getD jb.2.2.2.1 cgfDefault) (cgfs.getD jb.2.2.2.2 cgfDefault)) te0 st.jobs
    .ok (packMat sz Smat ++ packMat sz Tmat ++ packMat sz Vmat ++ te)

/-- A concrete interpretation of the transcendental operations over `ℚ`,
used by the witnesses (the verified statements hold for every
interpretation). -/
def ratPrims : Prims ℚ := ⟨3, 3, fun _ => 1, fun _ _ => 1, fun _ => 1, fun _ _ => 1⟩

/-- A concrete one-primitive contracted function over `ℚ` centered at
the origin, used by the witnesses. -/
def cgfQ : CGF ℚ := ⟨(0, 0, 0), [(1, 1, ⟨1, 0, 0, 0, 1, 0, 0, 0⟩)]⟩

/-! ## Lemmas: the canonical two-electron index -/

lemma swapLT_eq (a b : Nat) : swapLT a b = (max a b, min a b) := by
  unfold swapLT
  rcases Nat.lt_or_ge a b with h | h
  · rw [if_pos h, Nat.max_eq_right h.le, Nat.min_eq_left h.le]
  · rw [if_neg (Nat.not_lt.mpr h), Nat.max_eq_left h, Nat.min_eq_right h]

lemma compound_eq_tri (i j : Nat) : compound i j = tri i + j := rfl

lemma teindex_norm (i j k l : Nat) :
    teindex i j k l =
      compound (max (compound (max i j) (min i j)) (compound (max k l) (min k l)))
               (min (compound (max i j) (min i j)) (compound (max k l) (min k l))) := by
  simp [teindex, swapLT_eq]

lemma teindex_swap_bra (i j k l : Nat) : teindex i j k l = teindex j i k l := by
  simp [teindex_norm, Nat.max_comm, Nat.min_comm]

lemma teindex_swap_ket (i j k l : Nat) : teindex i j k l = teindex i j l k := by
  simp [teindex_norm, Nat.max_comm, Nat.min_comm]

lemma teindex_swap_pairs (i j k l : Nat) : teindex i j k l = teindex k l i j := by
  simp [teindex_norm, Nat.max_comm, Nat.min_comm]

lemma two_tri (t : Nat) : 2 * tri t = t * (t + 1) :=
  Nat.two_mul_div_two_of_even (Nat.even_mul_succ_self t)

lemma tri_succ (t : Nat) : tri (t + 1) = tri t + t + 1 := by
  have h1 := two_tri t
  have h2 := two_tri (t + 1)
  have h3 : (t + 1) * (t + 1 + 1) = t * (t + 1) + 2 * (t + 1) := by ring
  omega

lemma self_le_tri (t : Nat) : t ≤ tri t := by
  have h1 := two_tri t
  have h3 : t * (t + 1) = t * t + t := by ring
  have h4 : t ≤ t * t := by
    cases t with
    | zero => omega
    | succ n =>
      calc n + 1 = (n + 1) * 1 := by ring
        _ ≤ (n + 1) * (n + 1) := Nat.mul_le_mul_left _ (by omega)
  omega

lemma tri_mono {a b : Nat} (h : a ≤ b) : tri a ≤ tri b :=
  Nat.div_le_div_right (Nat.mul_le_mul h (by omega))

lemma compound_mono {a b c d : Nat} (hac : a ≤ c) (hbd : b ≤ d) :
    compound a b ≤ compound c d :=
  Nat.add_le_add (tri_mono hac) hbd

lemma teindex_diag (a : Nat) :
    teindex a a a a = compound (compound a a) (compound a a) := by
  simp [teindex_norm]

/-- Keys of quadruples below `N` never exceed the key of the all-`(N-1)`
quadruple: the bound that makes the abort branch of the job loop
unreachable. -/
lemma teindex_le {N i j k l : Nat} (hN : 1 ≤ N)
    (hi : i < N) (hj : j < N) (hk : k < N) (hl : l < N) :
    teindex i j k l ≤ teindex (N - 1) (N - 1) (N - 1) (N - 1) := by
  rw [teindex_norm, teindex_diag]
  have hC : compound (max i j) (min i j) ≤ compound (N - 1) (N - 1) :=
    compound_mono (by omega) (by omega)
  have hD : compound (max k l) (min k l) ≤ compound (N - 1) (N - 1) :=
    compound_mono (by omega) (by omega)
  exact compound_mono (by omega) (by omega)

/-- When the first pair is already ordered and the two compound indices
are ordered, `teindex` is the plain compound of compounds. -/
lemma teindex_of_sorted {i j k l : Nat} (hij : j ≤ i) (hkl : l ≤ k)
    (hc : compound k l ≤ compound i j) :
    teindex i j k l = compound (compound i j) (compound k l) := by
  rw [teindex_norm, Nat.max_eq_left hij, Nat.min_eq_right hij,
    Nat.max_eq_left hkl, Nat.min_eq_right hkl,
    Nat.max_eq_left hc, Nat.min_eq_right hc]

lemma invTri_tri_le (m : Nat) : tri (invTri m) ≤ m :=
  @Nat.findGreatest_spec 0 (fun t => tri t ≤ m) inferInstance m
    (Nat.zero_le m) (by simp [tri])

lemma invTri_lt_tri_succ (m : Nat) : m < tri (invTri m + 1) := by
  by_contra hc
  push_neg at hc
  have hle : invTri m + 1 ≤ m := le_trans (self_le_tri _) hc
  have := @Nat.findGreatest_is_greatest (invTri m + 1) (fun t => tri t ≤ m)
    inferInstance m (Nat.lt_succ_self (invTri m)) hle
  exact this hc

/-- Decomposition of a value below the diagonal compound `compound C C`
into an ordered pair of indices below `C`, inverting `compound`. -/
lemma compound_decomp {C m : Nat} (hm : m ≤ compound C C) :
    ∃ a b, b ≤ a ∧ a ≤ C ∧ compound a b = m := by
  refine ⟨invTri m, m - tri (invTri m), ?_, ?_, ?_⟩
  · have h1 := invTri_tri_le m
    have h2 := invTri_lt_tri_succ m
    have h3 := tri_succ (invTri m)
    omega
  · by_contra hc
    push_neg at hc
    have h1 : tri (C + 1) ≤ tri (invTri m) := tri_mono (by omega)
    have h2 := invTri_tri_le m
    have h3 := tri_succ C
    rw [compound_eq_tri] at hm
    omega
  · have h1 := invTri_tri_le m
    rw [compound_eq_tri]
    omega

/-- Surjectivity of `teindex` onto the whole allocated index range, with
a preimage quadruple below `N` that moreover passes the `ij ≤ kl` filter
of the job loop. -/
lemma teindex_surj {N : Nat} (hN : 1 ≤ N) (m : Nat)
    (hm : m ≤ teindex (N - 1) (N - 1) (N - 1) (N - 1)) :
    ∃ i j k l, i < N ∧ j < N ∧ k < N ∧ l < N ∧
      compound i j ≤ compound k l ∧ teindex i j k l = m := by
  rw [teindex_diag] at hm
  obtain ⟨P, Q, hQP, hPC, hPQ⟩ := compound_decomp hm
  obtain ⟨i, j, hji, hiN, hij⟩ := compound_decomp hPC
  have hQC : Q ≤ compound (N - 1) (N - 1) := le_trans hQP hPC
  obtain ⟨k, l, hlk, hkN, hkl⟩ := compound_decomp hQC
  refine ⟨k, l, i, j, by omega, by omega, by omega, by omega, ?_, ?_⟩
  · rw [hkl, hij]; exact hQP
  · rw [teindex_swap_pairs, teindex_of_sorted hji hlk (by rw [hkl, hij]; exact hQP),
      hij, hkl, hPQ]

/-! ## Lemmas: job construction -/

lemma mem_quadList {sz : Nat} {q : Nat × Nat × Nat × Nat} :
    q ∈ quadList sz ↔ q.1 < sz ∧ q.2.1 < sz ∧ q.2.2.1 < sz ∧ q.2.2.2 < sz := by
  obtain ⟨i, j, k, l⟩ := q
  simp only [quadList, List.mem_flatMap, List.mem_map, List.mem_range, Prod.mk.injEq]
  constructor
  · rintro ⟨a, ha, b, hb, c, hc, d, hd, h1, h2, h3, h4⟩
    subst h1; subst h2; subst h3; subst h4
    exact ⟨ha, hb, hc, hd⟩
  · rintro ⟨hi, hj, hk, hl⟩
    exact ⟨i, hi, j, hj, k, hk, l, hl, rfl, rfl, rfl, rfl⟩

/-- Main loop invariant of the job construction: provided every filtered
quadruple's key is below the array size, the fold never throws, preserves
`JInv`, marks exactly the keys of the processed filtered quadruples, and
every new job records a filtered quadruple of the list together with its
key. -/
lemma jobs_foldl_ok (size : Nat) :
    ∀ (L : List (Nat × Nat × Nat × Nat)) (st : JobState),
      (∀ q ∈ L, teindex q.1 q.2.1 q.2.2.1 q.2.2.2 < size) →
      JInv st →
      ∃ st', L.foldl (jobStep size) (.ok st) = .ok st' ∧ JInv st' ∧
        (∀ x, x ∈ st'.seen ↔ (x ∈ st.seen ∨ ∃ q ∈ L,
          compound q.1 q.2.1 ≤ compound q.2.2.1 q.2.2.2 ∧
          teindex q.1 q.2.1 q.2.2.1 q.2.2.2 = x)) ∧
        (∀ jb ∈ st'.jobs, jb ∈ st.jobs ∨
          (jb.1 < size ∧ (jb.2.1, jb.2.2.1, jb.2.2.2.1, jb.2.2.2.2) ∈ L ∧
           compound jb.2.1 jb.2.2.1 ≤ compound jb.2.2.2.1 jb.2.2.2.2 ∧
           jb.1 = teindex jb.2.1 jb.2.2.1 jb.2.2.2.1 jb.2.2.2.2)) := by
  intro L
  induction L with
  | nil =>
    intro st _ hinv
    exact ⟨st, rfl, hinv, fun x => by simp, fun jb hjb => Or.inl hjb⟩
  | cons q L ih =>
    intro st hL hinv
    rw [List.foldl_cons]
    by_cases hfil : compound q.1 q.2.1 ≤ compound q.2.2.1 q.2.2.2
    · have hlt : teindex q.1 q.2.1 q.2.2.1 q.2.2.2 < size := hL q (by simp)
      by_cases hseen : teindex q.1 q.2.1 q.2.2.1 q.2.2.2 ∈ st.seen
      · have hstep : jobStep size (.ok st) q = .ok st := by
          simp only [jobStep, if_pos hfil, if_neg (Nat.not_le.mpr hlt), if_pos hseen]
        rw [hstep]
        obtain ⟨st', h1, h2, h3, h4⟩ := ih st (fun p hp => hL p (by simp [hp])) hinv
        refine ⟨st', h1, h2, fun x => ?_, fun jb hjb => ?_⟩
        · rw [h3 x]
          constructor
          · rintro (hx | ⟨p, hp, hf, hk⟩)
            · exact Or.inl hx
            · exact Or.inr ⟨p, by simp [hp], hf, hk⟩
          · rintro (hx | ⟨p, hp, hf, hk⟩)
            · exact Or.inl hx
            · rcases List.mem_cons.mp hp with hqq | hp'
              · subst hqq; exact Or.inl (hk ▸ hseen)
              · exact Or.inr ⟨p, hp', hf, hk⟩
        · rcases h4 jb hjb with h | ⟨ha, hb, hc, hd⟩
          · exact Or.inl h
          · exact Or.inr ⟨ha, by simp [hb], hc, hd⟩
      · set key := teindex q.1 q.2.1 q.2.2.1 q.2.2.2 with hkey
        set st2 : JobState :=
          ⟨key :: st.seen, st.jobs ++ [(key, q.1, q.2.1, q.2.2.1, q.2.2.2)]⟩ with hst2
        have hstep : jobStep size (.ok st) q = .ok st2 := by
          simp only [jobStep, if_pos hfil, if_neg (Nat.not_le.mpr hlt), if_neg hseen]
        rw [hstep]
        have hinv2 : JInv st2 := by
          obtain ⟨hnd, hcorr⟩ := hinv
          constructor
          · rw [hst2]
            simp only [List.map_append, List.map_cons, List.map_nil]
            rw [List.nodup_append]
            refine ⟨hnd, List.nodup_singleton _, ?_⟩
            intro x hx hx1
            rcases List.mem_singleton.mp hx1 with rfl
            exact hseen ((hcorr _).mp hx)
          · intro x
            rw [hst2]
            simp only [List.map_append, List.map_cons, List.map_nil, List.mem_append,
              List.mem_singleton, List.mem_cons]
            rw [hcorr x]
            tauto
        obtain ⟨st', h1, h2, h3, h4⟩ := ih st2 (fun p hp => hL p (by simp [hp])) hinv2
        refine ⟨st', h1, h2, fun x => ?_, fun jb hjb => ?_⟩
        · rw [h3 x]
          constructor
          · rintro (hx | ⟨p, hp, hf, hk⟩)
            · rcases List.mem_cons.mp hx with rfl | hx'
              · exact Or.inr ⟨q, by simp, hfil, rfl⟩
              · exact Or.inl hx'
            · exact Or.inr ⟨p, by simp [hp], hf, hk⟩
          · rintro (hx | ⟨p, hp, hf, hk⟩)
            · exact Or.inl (by simp [hst2, hx])
            · rcases List.mem_cons.mp hp with hqq | hp'
              · subst hqq
                exact Or.inl (by simp [hst2, ← hk])
              · exact Or.inr ⟨p, hp', hf, hk⟩
        · rcases h4 jb hjb with h | ⟨ha, hb, hc, hd⟩
          · have h' : jb ∈ st.jobs ∨ jb = (key, q.1, q.2.1, q.2.2.1, q.2.2.2) := by
              simpa [hst2] using h
            rcases h' with h' | rfl
            · exact Or.inl h'
            · exact Or.inr ⟨hlt, by simp, hfil, rfl⟩
          · exact Or.inr ⟨ha, by simp [hb], hc, hd⟩
    · have hstep : jobStep size (.ok st) q = .ok st := by
        simp only [jobStep, if_neg hfil]
      rw [hstep]
      obtain ⟨st', h1, h2, h3, h4⟩ := ih st (fun p hp => hL p (by simp [hp])) hinv
      refine ⟨st', h1, h2, fun x => ?_, fun jb hjb => ?_⟩
      · rw [h3 x]
        constructor
        · rintro (hx | ⟨p, hp, hf, hk⟩)
          · exact Or.inl hx
          · exact Or.inr ⟨p, by simp [hp], hf, hk⟩
        · rintro (hx | ⟨p, hp, hf, hk⟩)
          · exact Or.inl hx
          · rcases List.mem_cons.mp hp with hqq | hp'
            · subst hqq; exact absurd hf hfil
            · exact Or.inr ⟨p, hp', hf, hk⟩
      · rcases h4 jb hjb with h | ⟨ha, hb, hc, hd⟩
        · exact Or.inl h
        · exact Or.inr ⟨ha, by simp [hb], hc, hd⟩

lemma teindex_maxmin (i j k l : Nat) :
    teindex (max i j) (min i j) (max k l) (min k l) = teindex i j k l := by
  rw [teindex_norm, teindex_norm i j k l,
    Nat.max_eq_left (min_le_max), Nat.min_eq_right (min_le_max),
    Nat.max_eq_left (min_le_max), Nat.min_eq_right (min_le_max)]

/-- Every quadruple has a representative with the same key that passes
the `ij ≤ kl` filter of the job loop. -/
lemma exists_filtered_preimage {N i j k l : Nat}
    (hi : i < N) (hj : j < N) (hk : k < N) (hl : l < N) :
    ∃ q : Nat × Nat × Nat × Nat, q ∈ quadList N ∧
      compound q.1 q.2.1 ≤ compound q.2.2.1 q.2.2.2 ∧
      teindex q.1 q.2.1 q.2.2.1 q.2.2.2 = teindex i j k l := by
  rcases le_or_lt (compound (max i j) (min i j)) (compound (max k l) (min k l)) with h | h
  · refine ⟨(max i j, min i j, max k l, min k l),
      mem_quadList.mpr ⟨Nat.max_lt.mpr ⟨hi, hj⟩,
        lt_of_le_of_lt (Nat.min_le_left i j) hi,
        Nat.max_lt.mpr ⟨hk, hl⟩, lt_of_le_of_lt (Nat.min_le_left k l) hk⟩,
      h, teindex_maxmin i j k l⟩
  · refine ⟨(max k l, min k l, max i j, min i j),
      mem_quadList.mpr ⟨Nat.max_lt.mpr ⟨hk, hl⟩,
        lt_of_le_of_lt (Nat.min_le_left k l) hk,
        Nat.max_lt.mpr ⟨hi, hj⟩, lt_of_le_of_lt (Nat.min_le_left i j) hi⟩,
      h.le, ?_⟩
    rw [teindex_swap_pairs, teindex_maxmin i j k l]

/-- `buildJobs` never throws for `sz ≥ 1`, satisfies the dedup
invariants, the sentinel set is exactly the set of keys of the filtered
quadruples, and every job records a filtered quadruple with its key. -/
lemma buildJobs_ok (sz : Nat) (hsz : 1 ≤ sz) :
    ∃ st, buildJobs sz = .ok st ∧ JInv st ∧
      (∀ x, x ∈ st.seen ↔ ∃ q ∈ quadList sz,
        compound q.1 q.2.1 ≤ compound q.2.2.1 q.2.2.2 ∧
        teindex q.1 q.2.1 q.2.2.1 q.2.2.2 = x) ∧
      (∀ jb ∈ st.jobs,
        jb.1 < teindex (sz - 1) (sz - 1) (sz - 1) (sz - 1) + 1 ∧
        (jb.2.1, jb.2.2.1, jb.2.2.2.1, jb.2.2.2.2) ∈ quadList sz ∧
        compound jb.2.1 jb.2.2.1 ≤ compound jb.2.2.2.1 jb.2.2.2.2 ∧
        jb.1 = teindex jb.2.1 jb.2.2.1 jb.2.2.2.1 jb.2.2.2.2) := by
  obtain ⟨st, h1, h2, h3, h4⟩ :=
    jobs_foldl_ok (teindex (sz - 1) (sz - 1) (sz - 1) (sz - 1) + 1)
      (quadList sz) ⟨[], []⟩
      (fun q hq => by
        obtain ⟨hi, hj, hk, hl⟩ := mem_quadList.mp hq
        have := teindex_le hsz hi hj hk hl
        omega)
      ⟨List.nodup_nil, by simp⟩
  refine ⟨st, h1, h2, fun x => ?_, fun jb hjb => ?_⟩
  · rw [h3 x]; simp
  · rcases h4 jb hjb with h | h
    · simp at h
    · exact h

lemma mem_allKeys {N x : Nat} :
    x ∈ allKeys N ↔
      ∃ i j k l, i < N ∧ j < N ∧ k < N ∧ l < N ∧ teindex i j k l = x := by
  simp only [allKeys, Finset.mem_image, Finset.mem_product, Finset.mem_range]
  constructor
  · rintro ⟨⟨i, j, k, l⟩, ⟨hi, hj, hk, hl⟩, hx⟩
    exact ⟨i, j, k, l, hi, hj, hk, hl, hx⟩
  · rintro ⟨i, j, k, l, hi, hj, hk, hl, hx⟩
    exact ⟨(i, j, k, l), ⟨hi, hj, hk, hl⟩, hx⟩

/-- The enqueued keys are exactly `allKeys N`. -/
lemma jobs_keys_eq_allKeys {N : Nat} (hN : 1 ≤ N) {st : JobState}
    (hok : buildJobs N = .ok st)
    (hinv : JInv st)
    (hseen : ∀ x, x ∈ st.seen ↔ ∃ q ∈ quadList N,
      compound q.1 q.2.1 ≤ compound q.2.2.1 q.2.2.2 ∧
      teindex q.1 q.2.1 q.2.2.1 q.2.2.2 = x) :
    ∀ x, x ∈ st.jobs.map (fun x => x.1) ↔ x ∈ allKeys N := by
  intro x
  rw [hinv.2 x, hseen x, mem_allKeys]
  constructor
  · rintro ⟨q, hq, _, hx⟩
    obtain ⟨hi, hj, hk, hl⟩ := mem_quadList.mp hq
    exact ⟨q.1, q.2.1, q.2.2.1, q.2.2.2, hi, hj, hk, hl, hx⟩
  · rintro ⟨i, j, k, l, hi, hj, hk, hl, hx⟩
    obtain ⟨q, hq, hf, hk'⟩ := exists_filtered_preimage hi hj hk hl
    exact ⟨q, hq, hf, hk'.trans hx⟩

/-- C1: for every quadruple `(i, j, k, l)` of basis-function indices,
`teindex` returns the same key for all eight permutations related by
bra/ket and electron-pair symmetry. -/
theorem teindex_eightfold_symmetry (i j k l : Nat) :
    teindex i j k l = teindex j i k l ∧
    teindex i j k l = teindex i j l k ∧
    teindex i j k l = teindex j i l k ∧
    teindex i j k l = teindex k l i j ∧
    teindex i j k l = teindex l k i j ∧
    teindex i j k l = teindex k l j i ∧
    teindex i j k l = teindex l k j i :=
  ⟨teindex_swap_bra i j k l,
   teindex_swap_ket i j k l,
   (teindex_swap_bra i j k l).trans (teindex_swap_ket j i k l),
   teindex_swap_pairs i j k l,
   (teindex_swap_pairs i j k l).trans (teindex_swap_bra k l i j),
   (teindex_swap_pairs i j k l).trans (teindex_swap_ket k l i j),
   (teindex_swap_pairs i j k l).trans
     ((teindex_swap_bra k l i j).trans (teindex_swap_ket l k i j))⟩

/-- C2: for every basis-set size `N ≥ 1`, the two-electron job list of
`evaluate_cgfs` contains exactly one entry per distinct `teindex` key
over all `N^4` quadruples: no key appears in two jobs, every key produced
by some quadruple appears in a job, every job key is produced by some
quadruple, and the job count is the number of distinct canonical keys. -/
theorem evaluate_cgfs_job_dedup (N : Nat) (hN : 1 ≤ N) :
    ∃ st, buildJobs N = .ok st ∧
      (st.jobs.map (fun x => x.1)).Nodup ∧
      (∀ i j k l, i < N → j < N → k < N → l < N →
        teindex i j k l ∈ st.jobs.map (fun x => x.1)) ∧
      (∀ x ∈ st.jobs.map (fun x => x.1),
        ∃ i j k l, i < N ∧ j < N ∧ k < N ∧ l < N ∧ teindex i j k l = x) ∧
      st.jobs.length = (allKeys N).card := by
  obtain ⟨st, hok, hinv, hseen, hjobs⟩ := buildJobs_ok N hN
  have hkeys := jobs_keys_eq_allKeys hN hok hinv hseen
  refine ⟨st, hok, hinv.1, ?_, ?_, ?_⟩
  · intro i j k l hi hj hk hl
    exact (hkeys _).mpr (mem_allKeys.mpr ⟨i, j, k, l, hi, hj, hk, hl, rfl⟩)
  · intro x hx
    exact mem_allKeys.mp ((hkeys x).mp hx)
  · have hTF : (st.jobs.map (fun x => x.1)).toFinset = allKeys N := by
      apply Finset.ext
      intro x
      rw [List.mem_toFinset]
      exact hkeys x
    calc st.jobs.length = (st.jobs.map (fun x => x.1)).length :=
          (List.length_map _ _).symm
      _ = (st.jobs.map (fun x => x.1)).toFinset.card :=
          (List.toFinset_card_of_nodup hinv.1).symm
      _ = (allKeys N).card := by rw [hTF]

/-- Witness for C2 at `N = 1`. -/
theorem evaluate_cgfs_job_dedup_witness :
    ∃ st, buildJobs 1 = .ok st ∧
      (st.jobs.map (fun x => x.1)).Nodup ∧
      (∀ i j k l, i < 1 → j < 1 → k < 1 → l < 1 →
        teindex i j k l ∈ st.jobs.map (fun x => x.1)) ∧
      (∀ x ∈ st.jobs.map (fun x => x.1),
        ∃ i j k l, i < 1 ∧ j < 1 ∧ k < 1 ∧ l < 1 ∧ teindex i j k l = x) ∧
      st.jobs.length = (allKeys 1).card :=
  evaluate_cgfs_job_dedup 1 (by decide)

/-- C3: keys of quadruples below `N` never reach the allocated
two-electron array size `teindex(N-1,...)+1`, so the
`Process tried to access illegal array position` abort branch of
`evaluate_cgfs` is unreachable: the job construction always completes
without an error. -/
theorem teindex_bound_abort_unreachable (N i j k l : Nat) (hN : 1 ≤ N)
    (hi : i < N) (hj : j < N) (hk : k < N) (hl : l < N) :
    teindex i j k l ≤ teindex (N - 1) (N - 1) (N - 1) (N - 1) ∧
    ∃ st, buildJobs N = .ok st := by
  obtain ⟨st, hok, -, -, -⟩ := buildJobs_ok N hN
  exact ⟨teindex_le hN hi hj hk hl, st, hok⟩

/-- Witness for C3 at `N = 1`, `i = j = k = l = 0`. -/
theorem teindex_bound_abort_unreachable_witness :
    teindex 0 0 0 0 ≤ teindex 0 0 0 0 ∧ ∃ st, buildJobs 1 = .ok st :=
  teindex_bound_abort_unreachable 1 0 0 0 0 (by decide)
    (by decide) (by decide) (by decide) (by decide)

/-- C9: `teindex` restricted to quadruples below `N` passing the
`ij ≤ kl` filter is surjective onto the whole allocated range, and after
the job construction every slot of the two-electron array belongs to
exactly one job. -/
theorem te_slots_covered_once (N : Nat) (hN : 1 ≤ N) :
    (∀ m, m ≤ teindex (N - 1) (N - 1) (N - 1) (N - 1) →
      ∃ i j k l, i < N ∧ j < N ∧ k < N ∧ l < N ∧
        compound i j ≤ compound k l ∧ teindex i j k l = m) ∧
    ∃ st, buildJobs N = .ok st ∧
      ∀ m, m ≤ teindex (N - 1) (N - 1) (N - 1) (N - 1) →
        (st.jobs.map (fun x => x.1)).count m = 1 := by
  obtain ⟨st, hok, hinv, hseen, hjobs⟩ := buildJobs_ok N hN
  refine ⟨teindex_surj hN, st, hok, fun m hm => ?_⟩
  obtain ⟨i, j, k, l, hi, hj, hk, hl, hf, hkey⟩ := teindex_surj hN m hm
  have hmem : m ∈ st.jobs.map (fun x => x.1) := by
    rw [hinv.2 m, hseen m]
    exact ⟨(i, j, k, l), mem_quadList.mpr ⟨hi, hj, hk, hl⟩, hf, hkey⟩
  exact List.count_eq_one_of_mem hinv.1 hmem

/-- Witness for C9 at `N = 1`. -/
theorem te_slots_covered_once_witness :
    (∀ m, m ≤ teindex 0 0 0 0 →
      ∃ i j k l, i < 1 ∧ j < 1 ∧ k < 1 ∧ l < 1 ∧
        compound i j ≤ compound k l ∧ teindex i j k l = m) ∧
    ∃ st, buildJobs 1 = .ok st ∧
      ∀ m, m ≤ teindex 0 0 0 0 →
        (st.jobs.map (fun x => x.1)).count m = 1 :=
  te_slots_covered_once 1 (by decide)

/-- C10 counterexample: for an empty basis set the requested size of the
two-electron array is not "a wrapped value other than 0 or 1": the final
`+ 1` wraps as well and the requested element count is exactly `0`. -/
theorem te_array_size_empty_basis_cx :
    ¬ (teArraySizeU64 0 ≠ 0 ∧ teArraySizeU64 0 ≠ 1) := by decide

/-- C10 amended: with `sz = 0` the unsigned `sz - 1` wraps to `2^64 - 1`,
`teindex` then returns `2^64 - 1`, and the trailing `+ 1` wraps once
more, so the element count requested for the two-electron array is
exactly `0`. -/
theorem te_array_size_empty_basis :
    (0 + U64 - 1) % U64 = U64 - 1 ∧
    teindexU64 (U64 - 1) (U64 - 1) (U64 - 1) (U64 - 1) = U64 - 1 ∧
    teArraySizeU64 0 = 0 := by
  refine ⟨by decide, by decide, by decide⟩

/-! ## Lemmas: matrix packing and the result layout -/

lemma packMat_length (sz : Nat) (M : Nat → Nat → F) :
    (packMat sz M).length = sz * sz := by
  simp [packMat]

lemma packMat_getD {sz i j : Nat} (M : Nat → Nat → F) (hi : i < sz) (hj : j < sz) :
    (packMat sz M).getD (j * sz + i) 0 = M i j := by
  have hlt : j * sz + i < sz * sz := by
    have h2 : (j + 1) * sz = j * sz + sz := by ring
    have h1 : (j + 1) * sz ≤ sz * sz := Nat.mul_le_mul_right sz (by omega)
    omega
  have hlen : j * sz + i < (packMat sz M).length := by
    rw [packMat_length]; exact hlt
  rw [List.getD_eq_getElem _ _ hlen]
  simp only [packMat, List.getElem_map, List.getElem_range]
  have e1 : (j * sz + i) % sz = i := by
    rw [Nat.mul_comm j sz, Nat.mul_add_mod]
    exact Nat.mod_eq_of_lt hi
  have e2 : (j * sz + i) / sz = j := by
    rw [Nat.mul_comm j sz, Nat.mul_add_div (by omega : 0 < sz),
      Nat.div_eq_of_lt hi]
    omega
  rw [e1, e2]

lemma teWrite_cons (v : Nat × Nat × Nat × Nat × Nat → F) (arr : List F)
    (jb : Nat × Nat × Nat × Nat × Nat) (rest : List (Nat × Nat × Nat × Nat × Nat)) :
    teWrite v arr (jb :: rest) = teWrite v (arr.set jb.1 (v jb)) rest := rfl

lemma teWrite_length (v : Nat × Nat × Nat × Nat × Nat → F)
    (jobs : List (Nat × Nat × Nat × Nat × Nat)) :
    ∀ arr : List F, (teWrite v arr jobs).length = arr.length := by
  induction jobs with
  | nil => intro arr; rfl
  | cons jb rest ih =>
    intro arr
    rw [teWrite_cons, ih, List.length_set]

lemma teWrite_getD_not_mem (v : Nat × Nat × Nat × Nat × Nat → F)
    (jobs : List (Nat × Nat × Nat × Nat × Nat)) :
    ∀ (arr : List F) (i : Nat), i ∉ jobs.map (fun x => x.1) →
      (teWrite v arr jobs).getD i 0 = arr.getD i 0 := by
  induction jobs with
  | nil => intro arr i _; rfl
  | cons jb rest ih =>
    intro arr i hi
    simp only [List.map_cons, List.mem_cons, not_or] at hi
    rw [teWrite_cons, ih _ _ hi.2]
    rw [List.getD_eq_getElem?_getD, List.getD_eq_getElem?_getD,
      List.getElem?_set_ne (fun h => hi.1 h.symm)]

/-- Every job's unique slot ends up holding the value of its quadruple. -/
lemma teWrite_getD_mem (v : Nat × Nat × Nat × Nat × Nat → F)
    (jobs : List (Nat × Nat × Nat × Nat × Nat)) :
    ∀ (arr : List F) (jb : Nat × Nat × Nat × Nat × Nat),
      (jobs.map (fun x => x.1)).Nodup → jb ∈ jobs → jb.1 < arr.length →
      (teWrite v arr jobs).getD jb.1 0 = v jb := by
  induction jobs with
  | nil => intro arr jb _ h _; simp at h
  | cons j0 rest ih =>
    intro arr jb hnd hmem hlt
    simp only [List.map_cons, List.nodup_cons] at hnd
    rw [teWrite_cons]
    rcases List.mem_cons.mp hmem with rfl | hmem'
    · rw [teWrite_getD_not_mem _ _ _ _ hnd.1]
      rw [List.getD_eq_getElem?_getD, List.getElem?_set_self hlt, Option.getD_some]
    · exact ih _ _ hnd.2 hmem' (by rw [List.length_set]; exact hlt)

/-- Shared layout lemma for `evaluateCgfs`: the call succeeds, the result
has length `3·sz² + (teindex(sz-1,...)+1)`, the three matrix blocks hold
the mirrored kernel values at the column-major positions, and the trailing
block holds each job's repulsion value at its key. -/
lemma evaluateCgfs_spec (P : Prims F) (cgfs : List (CGF F)) (charges : List Nat)
    (px py pz : List F) (hsz : 1 ≤ cgfs.length) :
    ∃ st r, buildJobs cgfs.length = .ok st ∧
      evaluateCgfs P cgfs charges px py pz = .ok r ∧
      r.length = 3 * (cgfs.length * cgfs.length) +
        (teindex (cgfs.length - 1) (cgfs.length - 1)
          (cgfs.length - 1) (cgfs.length - 1) + 1) ∧
      (∀ i j, i < cgfs.length → j < cgfs.length →
        r.getD (j * cgfs.length + i) 0 =
          overlap_cgf P (cgfs.getD (min i j) cgfDefault)
            (cgfs.getD (max i j) cgfDefault) ∧
        r.getD (cgfs.length * cgfs.length + (j * cgfs.length + i)) 0 =
          kinetic_cgf P (cgfs.getD (min i j) cgfDefault)
            (cgfs.getD (max i j) cgfDefault) ∧
        r.getD (2 * (cgfs.length * cgfs.length) + (j * cgfs.length + i)) 0 =
          ∑ kk ∈ Finset.range charges.length,
            nuclear_cgf P (cgfs.getD (min i j) cgfDefault)
              (cgfs.getD (max i j) cgfDefault)
              (px.getD kk 0, py.getD kk 0, pz.getD kk 0) (charges.getD kk 0)) ∧
      (∀ jb ∈ st.jobs, r.getD (3 * (cgfs.length * cgfs.length) + jb.1) 0 =
        repulsion_cgf P (cgfs.getD jb.2.1 cgfDefault) (cgfs.getD jb.2.2.1 cgfDefault)
          (cgfs.getD jb.2.2.2.1 cgfDefault) (cgfs.getD jb.2.2.2.2 cgfDefault)) := by
  obtain ⟨st, hok, hinv, hseen, hjobs⟩ := buildJobs_ok cgfs.length hsz
  have hr : evaluateCgfs P cgfs charges px py pz = .ok
      (packMat cgfs.length (fun a b =>
        overlap_cgf P (cgfs.getD (min a b) cgfDefault) (cgfs.getD (max a b) cgfDefault)) ++
       packMat cgfs.length (fun a b =>
        kinetic_cgf P (cgfs.getD (min a b) cgfDefault) (cgfs.getD (max a b) cgfDefault)) ++
       packMat cgfs.length (fun a b =>
        ∑ kk ∈ Finset.range charges.length,
          nuclear_cgf P (cgfs.getD (min a b) cgfDefault) (cgfs.getD (max a b) cgfDefault)
            (px.getD kk 0, py.getD kk 0, pz.getD kk 0) (charges.getD kk 0)) ++
       teWrite (fun jb =>
        repulsion_cgf P (cgfs.getD jb.2.1 cgfDefault) (cgfs.getD jb.2.2.1 cgfDefault)
          (cgfs.getD jb.2.2.2.1 cgfDefault) (cgfs.getD jb.2.2.2.2 cgfDefault))
        (List.replicate (teindex (cgfs.length - 1) (cgfs.length - 1)
          (cgfs.length - 1) (cgfs.length - 1) + 1) (-1)) st.jobs) := by
    simp only [evaluateCgfs, hok]
  set sz := cgfs.length with hszdef
  set A := packMat sz (fun a b =>
    overlap_cgf P (cgfs.getD (min a b) cgfDefault) (cgfs.getD (max a b) cgfDefault)) with hA
  set B := packMat sz (fun a b =>
    kinetic_cgf P (cgfs.getD (min a b) cgfDefault) (cgfs.getD (max a b) cgfDefault)) with hB
  set C := packMat sz (fun a b =>
    ∑ kk ∈ Finset.range charges.length,
      nuclear_cgf P (cgfs.getD (min a b) cgfDefault) (cgfs.getD (max a b) cgfDefault)
        (px.getD kk 0, py.getD kk 0, pz.getD kk 0) (charges.getD kk 0)) with hC
  set D := teWrite (fun jb =>
    repulsion_cgf P (cgfs.getD jb.2.1 cgfDefault) (cgfs.getD jb.2.2.1 cgfDefault)
      (cgfs.getD jb.2.2.2.1 cgfDefault) (cgfs.getD jb.2.2.2.2 cgfDefault))
    (List.replicate (teindex (sz - 1) (sz - 1) (sz - 1) (sz - 1) + 1) (-1)) st.jobs with hD
  have hAlen : A.length = sz * sz := packMat_length sz _
  have hBlen : B.length = sz * sz := packMat_length sz _
  have hClen : C.length = sz * sz := packMat_length sz _
  have hDlen : D.length = teindex (sz - 1) (sz - 1) (sz - 1) (sz - 1) + 1 := by
    rw [hD, teWrite_length, List.length_replicate]
  refine ⟨st, A ++ B ++ C ++ D, hok, hr, ?_, ?_, ?_⟩
  · simp only [List.length_append, hAlen, hBlen, hClen, hDlen]
    ring
  · intro i j hi hj
    have hn : j * sz + i < sz * sz := by
      have h2 : (j + 1) * sz = j * sz + sz := by ring
      have h1 : (j + 1) * sz ≤ sz * sz := Nat.mul_le_mul_right sz (by omega)
      omega
    rw [List.append_assoc, List.append_assoc]
    refine ⟨?_, ?_, ?_⟩
    · rw [List.getD_append _ _ _ _ (by omega : j * sz + i < A.length)]
      exact packMat_getD _ hi hj
    · rw [List.getD_append_right _ _ _ _ (by omega : A.length ≤ sz * sz + (j * sz + i))]
      have e : sz * sz + (j * sz + i) - A.length = j * sz + i := by omega
      rw [e, List.getD_append _ _ _ _ (by omega : j * sz + i < B.length)]
      exact packMat_getD _ hi hj
    · rw [List.getD_append_right _ _ _ _
        (by omega : A.length ≤ 2 * (sz * sz) + (j * sz + i))]
      have e : 2 * (sz * sz) + (j * sz + i) - A.length = sz * sz + (j * sz + i) := by omega
      rw [e, List.getD_append_right _ _ _ _
        (by omega : B.length ≤ sz * sz + (j * sz + i))]
      have e2 : sz * sz + (j * sz + i) - B.length = j * sz + i := by omega
      rw [e2, List.getD_append _ _ _ _ (by omega : j * sz + i < C.length)]
      exact packMat_getD _ hi hj
  · intro jb hjb
    have hkey : jb.1 < teindex (sz - 1) (sz - 1) (sz - 1) (sz - 1) + 1 := (hjobs jb hjb).1
    rw [List.append_assoc, List.append_assoc]
    rw [List.getD_append_right _ _ _ _
      (by omega : A.length ≤ 3 * (sz * sz) + jb.1)]
    have e : 3 * (sz * sz) + jb.1 - A.length = 2 * (sz * sz) + jb.1 := by omega
    rw [e, List.getD_append_right _ _ _ _
      (by omega : B.length ≤ 2 * (sz * sz) + jb.1)]
    have e2 : 2 * (sz * sz) + jb.1 - B.length = sz * sz + jb.1 := by omega
    rw [e2, List.getD_append_right _ _ _ _
      (by omega : C.length ≤ sz * sz + jb.1)]
    have e3 : sz * sz + jb.1 - C.length = jb.1 := by omega
    rw [e3, hD]
    exact teWrite_getD_mem _ _ _ _ hinv.1 hjb (by rw [List.length_replicate]; omega)

/-- C4: for every non-empty basis set and every charge configuration,
`evaluate_cgfs` returns a flat vector of length
`3·N² + (teindex(N-1,N-1,N-1,N-1)+1)`, laid out as the `N²` entries of
`S`, then `T`, then the summed nuclear-attraction matrix `V`, then the
symmetry-compressed two-electron array, in that order. -/
theorem evaluate_cgfs_layout (P : Prims F) (cgfs : List (CGF F)) (charges : List Nat)
    (px py pz : List F) (hsz : 1 ≤ cgfs.length) :
    ∃ st r, buildJobs cgfs.length = .ok st ∧
      evaluateCgfs P cgfs charges px py pz = .ok r ∧
      r.length = 3 * cgfs.length ^ 2 +
        (teindex (cgfs.length - 1) (cgfs.length - 1)
          (cgfs.length - 1) (cgfs.length - 1) + 1) ∧
      (∀ i j, i < cgfs.length → j < cgfs.length →
        r.getD (j * cgfs.length + i) 0 =
          overlap_cgf P (cgfs.getD (min i j) cgfDefault)
            (cgfs.getD (max i j) cgfDefault) ∧
        r.getD (cgfs.length ^ 2 + (j * cgfs.length + i)) 0 =
          kinetic_cgf P (cgfs.getD (min i j) cgfDefault)
            (cgfs.getD (max i j) cgfDefault) ∧
        r.getD (2 * cgfs.length ^ 2 + (j * cgfs.length + i)) 0 =
          ∑ kk ∈ Finset.range charges.length,
            nuclear_cgf P (cgfs.getD (min i j) cgfDefault)
              (cgfs.getD (max i j) cgfDefault)
              (px.getD kk 0, py.getD kk 0, pz.getD kk 0) (charges.getD kk 0)) ∧
      (∀ jb ∈ st.jobs, r.getD (3 * cgfs.length ^ 2 + jb.1) 0 =
        repulsion_cgf P (cgfs.getD jb.2.1 cgfDefault) (cgfs.getD jb.2.2.1 cgfDefault)
          (cgfs.getD jb.2.2.2.1 cgfDefault) (cgfs.getD jb.2.2.2.2 cgfDefault)) := by
  have hp : cgfs.length ^ 2 = cgfs.length * cgfs.length := by ring
  obtain ⟨st, r, hok, hr, hlen, hblocks, hte⟩ :=
    evaluateCgfs_spec P cgfs charges px py pz hsz
  rw [← hp] at hlen hte
  refine ⟨st, r, hok, hr, hlen, fun i j hi hj => ?_, hte⟩
  obtain ⟨h1, h2, h3⟩ := hblocks i j hi hj
  rw [← hp] at h2 h3
  exact ⟨h1, h2, h3⟩

/-- Witness for C4 on a concrete one-function basis over `ℚ`. -/
theorem evaluate_cgfs_layout_witness :
    ∃ st r, buildJobs [cgfQ].length = .ok st ∧
      evaluateCgfs ratPrims [cgfQ] [1] [0] [0] [0] = .ok r ∧
      r.length = 3 * [cgfQ].length ^ 2 +
        (teindex ([cgfQ].length - 1) ([cgfQ].length - 1)
          ([cgfQ].length - 1) ([cgfQ].length - 1) + 1) ∧
      (∀ i j, i < [cgfQ].length → j < [cgfQ].length →
        r.getD (j * [cgfQ].length + i) 0 =
          overlap_cgf ratPrims ([cgfQ].getD (min i j) cgfDefault)
            ([cgfQ].getD (max i j) cgfDefault) ∧
        r.getD ([cgfQ].length ^ 2 + (j * [cgfQ].length + i)) 0 =
          kinetic_cgf ratPrims ([cgfQ].getD (min i j) cgfDefault)
            ([cgfQ].getD (max i j) cgfDefault) ∧
        r.getD (2 * [cgfQ].length ^ 2 + (j * [cgfQ].length + i)) 0 =
          ∑ kk ∈ Finset.range [(1 : Nat)].length,
            nuclear_cgf ratPrims ([cgfQ].getD (min i j) cgfDefault)
              ([cgfQ].getD (max i j) cgfDefault)
              ([(0 : ℚ)].getD kk 0, [(0 : ℚ)].getD kk 0, [(0 : ℚ)].getD kk 0)
              ([(1 : Nat)].getD kk 0)) ∧
      (∀ jb ∈ st.jobs, r.getD (3 * [cgfQ].length ^ 2 + jb.1) 0 =
        repulsion_cgf ratPrims ([cgfQ].getD jb.2.1 cgfDefault)
          ([cgfQ].getD jb.2.2.1 cgfDefault)
          ([cgfQ].getD jb.2.2.2.1 cgfDefault) ([cgfQ].getD jb.2.2.2.2 cgfDefault)) :=
  evaluate_cgfs_layout ratPrims [cgfQ] [1] [0] [0] [0] (by simp)

/-- C5: the `S`, `T` and `V` matrices produced by `evaluate_cgfs` are
symmetric: each entry is computed once for `i ≤ j` and mirrored, so the
flattened result satisfies `M(i,j) = M(j,i)` for all three blocks. -/
theorem evaluate_cgfs_symmetric (P : Prims F) (cgfs : List (CGF F)) (charges : List Nat)
    (px py pz : List F) (i j : Nat) (hi : i < cgfs.length) (hj : j < cgfs.length) :
    ∃ r, evaluateCgfs P cgfs charges px py pz = .ok r ∧
      r.getD (j * cgfs.length + i) 0 = r.getD (i * cgfs.length + j) 0 ∧
      r.getD (cgfs.length * cgfs.length + (j * cgfs.length + i)) 0 =
        r.getD (cgfs.length * cgfs.length + (i * cgfs.length + j)) 0 ∧
      r.getD (2 * (cgfs.length * cgfs.length) + (j * cgfs.length + i)) 0 =
        r.getD (2 * (cgfs.length * cgfs.length) + (i * cgfs.length + j)) 0 := by
  obtain ⟨st, r, hok, hr, hlen, hblocks, hte⟩ :=
    evaluateCgfs_spec P cgfs charges px py pz (by omega)
  obtain ⟨hS1, hT1, hV1⟩ := hblocks i j hi hj
  obtain ⟨hS2, hT2, hV2⟩ := hblocks j i hj hi
  rw [Nat.min_comm j i, Nat.max_comm j i] at hS2 hT2 hV2
  exact ⟨r, hr, hS1.trans hS2.symm, hT1.trans hT2.symm, hV1.trans hV2.symm⟩

/-- Witness for C5 on a concrete one-function basis over `ℚ`. -/
theorem evaluate_cgfs_symmetric_witness :
    ∃ r, evaluateCgfs ratPrims [cgfQ] [1] [0] [0] [0] = .ok r ∧
      r.getD (0 * [cgfQ].length + 0) 0 = r.getD (0 * [cgfQ].length + 0) 0 ∧
      r.getD ([cgfQ].length * [cgfQ].length + (0 * [cgfQ].length + 0)) 0 =
        r.getD ([cgfQ].length * [cgfQ].length + (0 * [cgfQ].length + 0)) 0 ∧
      r.getD (2 * ([cgfQ].length * [cgfQ].length) + (0 * [cgfQ].length + 0)) 0 =
        r.getD (2 * ([cgfQ].length * [cgfQ].length) + (0 * [cgfQ].length + 0)) 0 :=
  evaluate_cgfs_symmetric ratPrims [cgfQ] [1] [0] [0] [0] 0 0 (by simp) (by simp)

lemma natCast_mul_pred (l : Nat) :
    ((l * (l - 1) : Nat) : F) = (l : F) * ((l : F) - 1) := by
  cases l with
  | zero => simp
  | succ n =>
    push_cast [Nat.succ_sub_one]
    ring

/-- C6: the primitive kinetic-energy integral equals the closed-form
combination of shifted overlap integrals
`α₂(2(l₂+m₂+n₂)+3)·S − 2α₂²·[S(l₂+2)+S(m₂+2)+S(n₂+2)]
− ½[l₂(l₂−1)S(l₂−2) + m₂(m₂−1)S(m₂−2) + n₂(n₂−1)S(n₂−2)]`,
the down-shifted terms carrying the factor `l₂(l₂−1)` which vanishes for
`l₂ ∈ {0, 1}`. -/
theorem kinetic_from_overlap_shifts (P : Prims F) (g1 g2 : GTO F) :
    kinetic_gto P g1 g2 =
      g2.alpha * (2 * ((g2.l : F) + (g2.m : F) + (g2.n : F)) + 3) * overlap_gto P g1 g2
      - 2 * g2.alpha ^ 2 *
        (overlap_params P g1.alpha g1.l g1.m g1.n g1.position
            g2.alpha ((g2.l : Int) + 2) g2.m g2.n g2.position +
         overlap_params P g1.alpha g1.l g1.m g1.n g1.position
            g2.alpha g2.l ((g2.m : Int) + 2) g2.n g2.position +
         overlap_params P g1.alpha g1.l g1.m g1.n g1.position
            g2.alpha g2.l g2.m ((g2.n : Int) + 2) g2.position)
      - (1 / 2 : F) *
        ((g2.l : F) * ((g2.l : F) - 1) *
           overlap_params P g1.alpha g1.l g1.m g1.n g1.position
             g2.alpha ((g2.l : Int) - 2) g2.m g2.n g2.position +
         (g2.m : F) * ((g2.m : F) - 1) *
           overlap_params P g1.alpha g1.l g1.m g1.n g1.position
             g2.alpha g2.l ((g2.m : Int) - 2) g2.n g2.position +
         (g2.n : F) * ((g2.n : F) - 1) *
           overlap_params P g1.alpha g1.l g1.m g1.n g1.position
             g2.alpha g2.l g2.m ((g2.n : Int) - 2) g2.position) := by
  simp only [kinetic_gto]
  rw [natCast_mul_pred, natCast_mul_pred, natCast_mul_pred]
  push_cast
  ring

/-- C7: `binomial` returns exactly `1.0` on every out-of-domain input
(`a < 0`, `b < 0` or `a < b`, the latter being the source's `a - b < 0`)
and `a!/(b!(a-b)!)` otherwise. -/
theorem binomial_permissive (a b : Int) :
    ((a < 0 ∨ b < 0 ∨ a < b) → (binomial a b : F) = 1) ∧
    (0 ≤ a → 0 ≤ b → b ≤ a →
      (binomial a b : F) = (a.toNat.factorial : F) /
        ((b.toNat.factorial : F) * ((a - b).toNat.factorial : F))) := by
  constructor
  · intro h
    unfold binomial
    rw [if_pos]
    rcases h with h | h | h
    · exact Or.inl h
    · exact Or.inr (Or.inl h)
    · exact Or.inr (Or.inr (by omega))
  · intro ha hb hba
    unfold binomial
    rw [if_neg (by omega : ¬(a < 0 ∨ b < 0 ∨ a - b < 0))]

/-- Witness for C7 at `(-1, 0)` (out of domain) and `(4, 2)` (in
domain), over `ℚ`. -/
theorem binomial_permissive_witness :
    (binomial (-1) 0 : ℚ) = 1 ∧
    (binomial 4 2 : ℚ) = ((4 : Int).toNat.factorial : ℚ) /
      (((2 : Int).toNat.factorial : ℚ) * (((4 : Int) - 2).toNat.factorial : ℚ)) :=
  ⟨(binomial_permissive (-1) 0).1 (Or.inl (by decide)),
   (binomial_permissive 4 2).2 (by decide) (by decide) (by decide)⟩

/-- C8: the contracted derivative kernels return exactly `0` when both
operands or neither operand is attached to the differentiation nucleus
(`overlap_deriv`, `kinetic_deriv`), and when none of the four operands is
attached (`repulsion_deriv`); attachment is the squared-distance test of
the source. -/
theorem deriv_attachment_zero (P : Prims F) (c1 c2 c3 c4 : CGF F)
    (nucleus : V3 F) (coord : Fin 3) :
    (nucAttached c1.r nucleus = nucAttached c2.r nucleus →
      overlap_deriv_cgf P c1 c2 nucleus coord = 0 ∧
      kinetic_deriv_cgf P c1 c2 nucleus coord = 0) ∧
    (nucAttached c1.r nucleus = false → nucAttached c2.r nucleus = false →
     nucAttached c3.r nucleus = false → nucAttached c4.r nucleus = false →
      repulsion_deriv_cgf P c1 c2 c3 c4 nucleus coord = 0) := by
  constructor
  · intro h
    constructor
    · simp only [overlap_deriv_cgf]
      rw [if_pos h]
    · simp only [kinetic_deriv_cgf]
      rw [if_pos h]
  · intro h1 h2 h3 h4
    simp only [repulsion_deriv_cgf]
    rw [if_pos ⟨h1.trans h2.symm, h2.trans h3.symm, h3.trans h4.symm⟩]

lemma cgfQ_not_attached : nucAttached cgfQ.r ((5 : ℚ), 0, 0) = false := by
  simp only [nucAttached, cgfQ, sqNorm, vsub, decide_eq_false_iff_not]
  norm_num

/-- Witness for C8 with four concrete `ℚ` functions, none attached to
the nucleus at `(5, 0, 0)`. -/
theorem deriv_attachment_zero_witness :
    overlap_deriv_cgf ratPrims cgfQ cgfQ (5, 0, 0) 0 = 0 ∧
    kinetic_deriv_cgf ratPrims cgfQ cgfQ (5, 0, 0) 0 = 0 ∧
    repulsion_deriv_cgf ratPrims cgfQ cgfQ cgfQ cgfQ (5, 0, 0) 0 = 0 :=
  ⟨((deriv_attachment_zero ratPrims cgfQ cgfQ cgfQ cgfQ (5, 0, 0) 0).1 rfl).1,
   ((deriv_attachment_zero ratPrims cgfQ cgfQ cgfQ cgfQ (5, 0, 0) 0).1 rfl).2,
   (deriv_attachment_zero ratPrims cgfQ cgfQ cgfQ cgfQ (5, 0, 0) 0).2
     cgfQ_not_attached cgfQ_not_attached cgfQ_not_attached cgfQ_not_attached⟩

end PyQInt
